import Mathlib

/-!
Verification development for the npm-scripts-tree core (`index.js`).

The script-relationship resolver is embedded shallowly: a script map
(`package.json` `scripts` object) is an insertion-ordered association list
from script name to command string, regex-driven extraction is modelled by
explicit scanners that follow the two source regexes, the external
`minimatch` glob matcher is modelled from the spec's description of it, and
the two resolver passes, the pruning pass and the entry point are
translated function by function.  Node references (entries stored inside
other entries' `nodes` arrays) are represented by the referenced entry's
name, since the name→entry arena makes that indirection lossless.
-/

namespace NpmScriptsTree

/-- Script map: a JS object mapping script name to command string,
in insertion order. -/
abbrev Scripts := List (String × String)

/-- JS property read `o[k]` on an object modelled as an insertion-ordered
association list (JS object keys are distinct, lookup finds the unique entry). -/
def objGet {α : Type} (o : List (String × α)) (k : String) : Option α :=
  (o.find? (fun p => p.1 == k)).map (fun p => p.2)

/-- `Object.keys(o)`, in insertion order. -/
def keys {α : Type} (o : List (String × α)) : List String :=
  o.map (fun p => p.1)

/-- JS truthiness of `scripts[n]`: the key is present and its command is a
nonempty string (`undefined` and `""` are falsy). -/
def truthyLookup (scripts : Scripts) (n : String) : Bool :=
  match objGet scripts n with
  | some v => v != ""
  | none => false

/-- JS truthiness of an optional string field (`undefined` or a string). -/
def truthyOpt (o : Option String) : Bool :=
  match o with
  | some v => v != ""
  | none => false

/-- Helper for `unique`: `seen` is the set of already emitted elements. -/
def uniqueAux (seen : List String) : List String → List String
  | [] => []
  | x :: xs => if seen.contains x then uniqueAux seen xs else x :: uniqueAux (x :: seen) xs

/-- `const unique = array => [...new Set(array)]`: removes duplicates,
keeping the first occurrence of each element. -/
def unique (l : List String) : List String := uniqueAux [] l

/-- The `BUILTINS` array from the source. -/
def BUILTINS : List String :=
  ["publish", "install", "uninstall", "test", "stop", "start", "restart", "version"]

/-! ### Regex-based reference extraction

The source compiles `"(?:npm run" + RE_NAME + ")+"` and
`"(?:npm-run-all" + RE_FLAGS + RE_NAMES + ")+"` with flags `gi` and runs an
`exec` loop.  Because nothing follows the outer `+` and the first letter of
each runner keyword lies inside the greedy name character class, the outer
`+` can never iterate twice; each `exec` match is therefore a single
keyword / flags / name-list group, found leftmost and resumed after the
match.  The scanners below implement exactly that, with the greedy
sub-matches (`\s+`, `\-+`, `\w+`, the name classes) taken maximal (none of
the adjacent classes overlap, so maximal munch is exact) and with the one
real backtracking point — flag groups being given back one at a time when
the name list cannot match after them — made explicit. -/

/-- JS `\s` character class (ASCII whitespace suffices for script commands). -/
def isWs (c : Char) : Bool := c.isWhitespace

/-- The character class of `RE_NAME`, `[a-z0-9_:\-]`, under the `i` flag. -/
def isRunNameChar (c : Char) : Bool :=
  c.isAlpha || c.isDigit || c == '_' || c == ':' || c == '-'

/-- The character class of `RE_NAMES`, `[a-z0-9_:\-\*]`, under the `i` flag. -/
def isRunAllNameChar (c : Char) : Bool := isRunNameChar c || c == '*'

/-- JS `\w` character class. -/
def isWordChar (c : Char) : Bool := c.isAlpha || c.isDigit || c == '_'

/-- Case-insensitive literal match (the regexes carry the `i` flag);
returns the remaining input on success. -/
def matchLitCI : List Char → List Char → Option (List Char)
  | [], rest => some rest
  | _ :: _, [] => none
  | l :: ls, c :: cs => if l.toLower == c.toLower then matchLitCI ls cs else none

/-- Try `npm run\s+([a-z0-9_:\-]+)` at the current position;
returns the captured name and the rest. -/
def tryRunMatch (cs : List Char) : Option (String × List Char) :=
  match matchLitCI "npm run".toList cs with
  | none => none
  | some r1 =>
    let ws := r1.takeWhile isWs
    let r2 := r1.dropWhile isWs
    if ws.isEmpty then none
    else
      let nm := r2.takeWhile isRunNameChar
      let r3 := r2.dropWhile isRunNameChar
      if nm.isEmpty then none else some (⟨nm⟩, r3)

/-- The `re.exec` loop of `getRunScripts`: successive non-overlapping
leftmost matches, each contributing its captured name.  The fuel is the
input length; every step consumes at least one character. -/
def scanRuns : Nat → List Char → List String
  | 0, _ => []
  | _ + 1, [] => []
  | fuel + 1, c :: cs =>
    match tryRunMatch (c :: cs) with
    | some (nm, rest) => nm :: scanRuns fuel rest
    | none => scanRuns fuel cs

/-- `getRunScripts`: for each `npm run` group, the captured script name,
deduplicated. -/
def getRunScripts (cmd : String) : List String :=
  unique (scanRuns cmd.toList.length cmd.toList)

/-- One `\s+\-+\w+` flag group of `RE_FLAGS`; returns the rest on success. -/
def tryFlag (cs : List Char) : Option (List Char) :=
  let ws := cs.takeWhile isWs
  let r1 := cs.dropWhile isWs
  if ws.isEmpty then none
  else
    let ds := r1.takeWhile (fun c => c == '-')
    let r2 := r1.dropWhile (fun c => c == '-')
    if ds.isEmpty then none
    else
      let w := r2.takeWhile isWordChar
      let r3 := r2.dropWhile isWordChar
      if w.isEmpty then none else some r3

/-- One `\s+[a-z0-9_:\-\*]+` repetition inside the `RE_NAMES` capture;
returns the consumed characters (whitespace included, as captured) and the rest. -/
def tryNameRep (cs : List Char) : Option (List Char × List Char) :=
  let ws := cs.takeWhile isWs
  let r1 := cs.dropWhile isWs
  if ws.isEmpty then none
  else
    let tk := r1.takeWhile isRunAllNameChar
    let r2 := r1.dropWhile isRunAllNameChar
    if tk.isEmpty then none else some (ws ++ tk, r2)

/-- The greedy `(?:\s+[a-z0-9_:\-\*]+)+` capture of `RE_NAMES`
(at least one repetition, maximal). -/
def tryNames : Nat → List Char → Option (List Char × List Char)
  | 0, _ => none
  | fuel + 1, cs =>
    match tryNameRep cs with
    | none => none
    | some (seg, rest) =>
      match tryNames fuel rest with
      | none => some (seg, rest)
      | some (seg2, rest2) => some (seg ++ seg2, rest2)

/-- Greedy `RE_FLAGS` followed by the `RE_NAMES` capture, with the regex
backtracking order made explicit: the engine consumes as many flag groups
as possible and gives them back one at a time (deepest first) until the
name list can match. -/
def tryFlagsThenNames : Nat → List Char → Option (List Char × List Char)
  | 0, cs => tryNames (cs.length + 1) cs
  | fuel + 1, cs =>
    match tryFlag cs with
    | none => tryNames (cs.length + 1) cs
    | some rest =>
      match tryFlagsThenNames fuel rest with
      | some r => some r
      | none => tryNames (cs.length + 1) cs

/-- Try the whole `npm-run-all` pattern at the current position;
returns the raw `m[1]` capture and the rest. -/
def tryRunAllMatch (cs : List Char) : Option (List Char × List Char) :=
  match matchLitCI "npm-run-all".toList cs with
  | none => none
  | some r1 => tryFlagsThenNames (r1.length + 1) r1

/-- Split on a character, keeping empty parts
(as `String.prototype.split` and path segmentation do). -/
def splitOnChar (sep : Char) : List Char → List (List Char)
  | [] => [[]]
  | c :: cs =>
    match splitOnChar sep cs with
    | [] => [[]]
    | s :: ss => if c == sep then [] :: s :: ss else (c :: s) :: ss

/-- Inverse of `splitOnChar`: interleave the separator between the parts
(used to show that splitting is injective). -/
def joinSegs (sep : Char) : List (List Char) → List Char
  | [] => []
  | [s] => s
  | s :: s2 :: ss => s ++ sep :: joinSegs sep (s2 :: ss)

/-- JS `String.prototype.trim`. -/
def trimWs (l : List Char) : List Char :=
  ((l.dropWhile isWs).reverse.dropWhile isWs).reverse

/-- `m.match.trim().split(" ").filter(x => x)` from `getRunAllScripts`. -/
def cleanNames (cap : List Char) : List String :=
  ((splitOnChar ' ' (trimWs cap)).map (fun t => (⟨t⟩ : String))).filter (fun x => x != "")

/-- The `re.exec` loop of `getRunAllScripts`: each match contributes its
cleaned name-token list. -/
def scanRunAll : Nat → List Char → List (List String)
  | 0, _ => []
  | _ + 1, [] => []
  | fuel + 1, c :: cs =>
    match tryRunAllMatch (c :: cs) with
    | some (cap, rest) => cleanNames cap :: scanRunAll fuel rest
    | none => scanRunAll fuel cs

/-- `getRunAllScripts`: name tokens of each `npm-run-all` group, flattened
and deduplicated. -/
def getRunAllScripts (cmd : String) : List String :=
  unique (scanRunAll cmd.toList.length cmd.toList).flatten

/-! ### Wildcard expansion

`expandWildcard` swaps `:` and `/` in the referenced name and in every
script name and delegates to the external `minimatch` glob matcher.
`minimatch` itself is not part of this repository; it is modelled from the
spec: a standard glob-matching test over `/`-separated segments where `*`
matches within one segment and `**` matches any number of segments. -/

/-- The `swapColonAndSlash` character map (`:` ↔ `/`). -/
def swapChar (c : Char) : Char :=
  if c == ':' then '/' else if c == '/' then ':' else c

/-- `const swapColonAndSlash = s => s.replace(RE_COLON_OR_SLASH, m => SWAP_MAP[m])`. -/
def swapColonAndSlash (s : String) : String := ⟨s.toList.map swapChar⟩

/-- Whether a character list contains the glob character `*`. -/
def hasStar : List Char → Bool
  | [] => false
  | c :: cs => c == '*' || hasStar cs

/-- Modelled from the spec: in-segment glob matching of the external
minimatch library — `*` matches any run of characters within one segment,
other characters match literally.  Fueled so evaluation is by `decide`;
fuel `|p| + |f| + 1` always suffices. -/
def segMatch : Nat → List Char → List Char → Bool
  | 0, _, _ => false
  | _ + 1, [], f => f.isEmpty
  | fuel + 1, c :: ps, f =>
    if c == '*' then
      segMatch fuel ps f || (!f.isEmpty && segMatch fuel (c :: ps) f.tail)
    else
      match f with
      | [] => false
      | d :: fs => c == d && segMatch fuel ps fs

/-- Modelled from the spec: one minimatch pattern segment against one
candidate segment; a segment containing a star never matches an empty
segment (minimatch guards magic segments with a non-empty lookahead). -/
def segMatchM (p f : List Char) : Bool :=
  (if hasStar p then !f.isEmpty else true) && segMatch (p.length + f.length + 1) p f

/-- Modelled from the spec: segment-level glob matching of minimatch — a
pattern segment that is exactly `**` (globstar) matches any number of
candidate segments, including none when trailing; every other segment
matches exactly one candidate segment. -/
def matchSegs : Nat → List (List Char) → List (List Char) → Bool
  | 0, _, _ => false
  | _ + 1, [], fs => fs.isEmpty
  | fuel + 1, p :: ps, fs =>
    if p == ['*', '*'] then
      matchSegs fuel ps fs || (!fs.isEmpty && matchSegs fuel (p :: ps) fs.tail)
    else
      match fs with
      | [] => false
      | f :: fs' => segMatchM p f && matchSegs fuel ps fs'

/-- Modelled from the spec: `minimatch(target, pat)` over `/`-separated
segments. -/
def minimatchM (target pat : String) : Bool :=
  let ps := splitOnChar '/' pat.toList
  let fs := splitOnChar '/' target.toList
  matchSegs (ps.length + fs.length + 1) ps fs

/-- `expandWildcard`: `test:*` → `[test:lint, test:client]`,
`test:**` → `[test:lint, test:client, test:client:fx]`.  Every script key is
swapped into path shape, matched against the swapped referenced name, and
matches are swapped back, in map iteration order. -/
def expandWildcard (name : String) (scripts : Scripts) : List String :=
  let n := swapColonAndSlash name
  (((keys scripts).map swapColonAndSlash).filter (fun x => minimatchM x n)).map
    swapColonAndSlash

/-- `expandWildcards`: wildcard expansion of every referenced name, flattened. -/
def expandWildcards (names : List String) (scripts : Scripts) : List String :=
  (names.map (fun x => expandWildcard x scripts)).flatten

/-- `getExistingSubNames`: expanded names filtered by existence
(`scripts[n]` truthy); dangling references are silently dropped. -/
def getExistingSubNames (names : List String) (scripts : Scripts) : List String :=
  (expandWildcards names scripts).filter (fun n => truthyLookup scripts n)

/-- The local `subNames` of `getSubNames`: both extractors applied to the
command (`[].concat(getRunScripts(cmd), getRunAllScripts(cmd))`), falsy
(empty) strings filtered out. -/
def rawSubNames (name : String) (scripts : Scripts) : List String :=
  let cmd := (objGet scripts name).getD ""
  (getRunScripts cmd ++ getRunAllScripts cmd).filter (fun x => x != "")

/-- `getSubNames`: the extracted references, deduplicated, then
wildcard-expanded and existence-filtered. -/
def getSubNames (name : String) (scripts : Scripts) : List String :=
  getExistingSubNames (unique (rawSubNames name scripts)) scripts

/-- `name.slice(prefix.length)` (string operations are carried out on the
character list so that they evaluate inside the kernel). -/
def sliceFrom (name : String) (n : Nat) : String := ⟨name.toList.drop n⟩

/-- `name.match(new RegExp("^" + prefix))` with the two literal prefixes
`pre` / `post`: a starts-with test. -/
def startsWithLit (name pfx : String) : Bool :=
  name.toList.take pfx.toList.length == pfx.toList

/-- `isLifeCycleScript`: the name must start with the prefix and the
remainder must be a truthy script entry or a builtin. -/
def isLifeCycleScript (pfx name : String) (scripts : Scripts) : Bool :=
  let root := sliceFrom name pfx.toList.length
  startsWithLit name pfx && (truthyLookup scripts root || BUILTINS.contains root)

/-! ### The two resolver passes, pruning, and the entry point -/

/-- The per-script record built by the first pass (`getDetailedScripts`).
`pre` / `post` hold the raw command of `scripts[PRE + name]` /
`scripts[POST + name]` (`none` when the key is absent). -/
structure DetailedScript where
  name : String
  cmd : String
  isPre : Bool
  isPost : Bool
  pre : Option String
  post : Option String
  subNames : List String
deriving Repr, DecidableEq

/-- One entry of the first pass. -/
def detailOne (scripts : Scripts) (name cmd : String) : DetailedScript :=
  { name := name, cmd := cmd,
    isPre := isLifeCycleScript "pre" name scripts,
    isPost := isLifeCycleScript "post" name scripts,
    pre := objGet scripts ("pre" ++ name),
    post := objGet scripts ("post" ++ name),
    subNames := getSubNames name scripts }

/-- `getDetailedScripts` (first pass): one record per script, keyed by name,
in map iteration order. -/
def getDetailedScripts (scripts : Scripts) : List (String × DetailedScript) :=
  scripts.map (fun p => (p.1, detailOne scripts p.1 p.2))

/-- `gatherAllSubNames`: the deduplicated union of every entry's `subNames`. -/
def gatherAllSubNames (scripts : List (String × DetailedScript)) : List String :=
  unique ((scripts.map (fun p => p.2.subNames)).flatten)

/-- `getLabel`: chalk color wrappers are terminal styling (out of scope for
the core) and are modelled as the identity, leaving `name — cmd`. -/
def getLabel (name cmd : String) : String := name ++ " — " ++ cmd

/-- The per-script record after the second pass (`attachLabelAndNodes`).
`nodes` holds the names of the referenced entries: the source stores the
entry objects themselves (`s.subNames.map(n => scripts[n])` plus the
unshifted/pushed hook entries), and entries are in bijection with their
names in the arena, so the name list is a lossless representation. -/
structure AttachedScript where
  name : String
  cmd : String
  isPre : Bool
  isPost : Bool
  pre : Option String
  post : Option String
  subNames : List String
  isSub : Bool
  isExplicitSub : Bool
  explicitSubLevel : Nat
  label : String
  nodes : List String
deriving Repr, DecidableEq

/-- One entry of the second pass: sub-script flags, label, and the node
list with the `pre` hook unshifted and the `post` hook pushed when their
commands are truthy. -/
def attachOne (allSubNames : List String) (name : String) (s : DetailedScript) :
    AttachedScript :=
  let isSub := allSubNames.contains name
  let nodes1 := if truthyOpt s.pre then ("pre" ++ name) :: s.subNames else s.subNames
  let nodes2 := if truthyOpt s.post then nodes1 ++ ["post" ++ name] else nodes1
  { name := s.name, cmd := s.cmd, isPre := s.isPre, isPost := s.isPost,
    pre := s.pre, post := s.post, subNames := s.subNames,
    isSub := isSub,
    isExplicitSub := isSub && name.toList.contains ':',
    explicitSubLevel := (splitOnChar ':' name.toList).length - 1,
    label := getLabel s.name s.cmd,
    nodes := nodes2 }

/-- `attachLabelAndNodes` (second pass). -/
def attachLabelAndNodes (scripts : List (String × DetailedScript)) :
    List (String × AttachedScript) :=
  let allSubNames := gatherAllSubNames scripts
  scripts.map (fun p => (p.1, attachOne allSubNames p.1 p.2))

/-- `prune` (third pass): keep only entries that are neither `pre`/`post`
hooks nor explicit (colon-qualified) sub-scripts. -/
def prune (scripts : List (String × AttachedScript)) : List (String × AttachedScript) :=
  scripts.filter (fun p => !p.2.isPre && !p.2.isPost && !p.2.isExplicitSub)

/-- The root node handed to the external `archy` renderer; its children are
the top-level entries, represented by name (same indirection as `nodes`). -/
structure ArchifiedTree where
  label : String
  nodeNames : List String
deriving Repr, DecidableEq

/-- Stable insertion of JS `Array.prototype.sort` on strings. -/
def insertLe (x : String) : List String → List String
  | [] => [x]
  | y :: ys => if x ≤ y then x :: y :: ys else y :: insertLe x ys

/-- JS `names.sort()`: default lexicographic string sort. -/
def sortJS (l : List String) : List String := l.foldr insertLe []

/-- `archify`: the root labeled with the script count, children in map
iteration order or alphabetical order. -/
def archify (scripts : List (String × AttachedScript)) (alpha : Bool) : ArchifiedTree :=
  let names := if alpha then sortJS (keys scripts) else keys scripts
  { label := toString names.length ++ " scripts", nodeNames := names }

/-- The recognized option flags. -/
structure Options where
  a : Bool
  alpha : Bool
  p : Bool
  prune : Bool
deriving Repr, DecidableEq

/-- `main`: throws on a missing (null/undefined) script map — `!scripts` —
then runs the two passes, optional pruning, and hands the archified tree to
the external renderer (the returned value is the tree `archy` receives). -/
def main (scripts? : Option Scripts) (options : Options) : Except String ArchifiedTree :=
  match scripts? with
  | none => Except.error "No package.json or no scripts key in this dir"
  | some scripts =>
    let detailedScripts := getDetailedScripts scripts
    let attached := attachLabelAndNodes detailedScripts
    let pruned := if options.p || options.prune then prune attached else attached
    let alpha := options.a || options.alpha
    Except.ok (archify pruned alpha)

/-! ### Helper lemmas -/

/-- Truthiness of a script lookup unfolded. -/
theorem truthyLookup_eq_true {scripts : Scripts} {n : String} :
    truthyLookup scripts n = true ↔ ∃ v, objGet scripts n = some v ∧ v ≠ "" := by
  cases h : objGet scripts n <;> simp [truthyLookup, h, bne_iff_ne]

/-- A successful object lookup means the key is among the object's keys. -/
theorem objGet_some_mem_keys {α : Type} {o : List (String × α)} {k : String} {v : α}
    (h : objGet o k = some v) : k ∈ keys o := by
  rw [objGet] at h
  cases hf : o.find? (fun p => p.1 == k) with
  | none => rw [hf] at h; simp at h
  | some p =>
    have hmem := List.mem_of_find?_eq_some hf
    have hpred : p.1 = k := by simpa using List.find?_some hf
    exact hpred ▸ List.mem_map_of_mem (fun q => q.1) hmem

/-- Lookup commutes with a key-preserving map over the entries. -/
theorem objGet_map {α β : Type} (g : String → α → β) (l : List (String × α)) (k : String) :
    objGet (l.map (fun p => (p.1, g p.1 p.2))) k = (objGet l k).map (g k) := by
  induction l with
  | nil => rfl
  | cons p t ih =>
    by_cases h : p.1 = k
    · subst h; simp [objGet, List.find?_cons]
    · have hb : (p.1 == k) = false := beq_eq_false_iff_ne.mpr h
      simp only [objGet, List.map_cons, List.find?_cons, hb] at ih ⊢
      simpa using ih

/-- Elements produced by `uniqueAux` come from the input list. -/
theorem uniqueAux_sub {l : List String} : ∀ {seen y}, y ∈ uniqueAux seen l → y ∈ l := by
  induction l with
  | nil => intro seen y h; simp [uniqueAux] at h
  | cons x xs ih =>
    intro seen y h
    cases hc : seen.contains x <;> rw [uniqueAux] at h <;> simp only [hc] at h
    · simp only [if_false, Bool.false_eq_true, reduceIte] at h
      rcases List.mem_cons.mp h with rfl | h'
      · exact List.mem_cons_self _ _
      · exact List.mem_cons_of_mem _ (ih h')
    · simp only [if_true, reduceIte] at h
      exact List.mem_cons_of_mem _ (ih h)

/-- `uniqueAux` never emits an already-seen element and has no duplicates. -/
theorem uniqueAux_nodup (l : List String) :
    ∀ seen, (uniqueAux seen l).Nodup ∧ ∀ y ∈ uniqueAux seen l, y ∉ seen := by
  induction l with
  | nil => intro seen; simp [uniqueAux]
  | cons x xs ih =>
    intro seen
    cases hc : seen.contains x
    · have hx : x ∉ seen := by
        intro hmem
        rw [List.contains, List.elem_eq_true_of_mem hmem] at hc
        exact Bool.true_eq_false.mp hc
      rw [uniqueAux]
      simp only [hc, Bool.false_eq_true, reduceIte]
      refine ⟨List.nodup_cons.mpr ⟨?_, (ih (x :: seen)).1⟩, ?_⟩
      · intro hmem
        exact ((ih (x :: seen)).2 _ hmem) (List.mem_cons_self x seen)
      · intro y hy
        rcases List.mem_cons.mp hy with rfl | hy'
        · exact hx
        · intro hmem
          exact ((ih (x :: seen)).2 _ hy') (List.mem_cons_of_mem _ hmem)
    · rw [uniqueAux]
      simp only [hc, reduceIte]
      exact ih seen

/-- `unique` produces a duplicate-free list. -/
theorem unique_nodup (l : List String) : (unique l).Nodup := (uniqueAux_nodup l []).1

/-- `unique` is a sublist selection: members come from the input. -/
theorem unique_sub {l : List String} {y : String} (h : y ∈ unique l) : y ∈ l :=
  uniqueAux_sub h

/-- The colon/slash swap is an involution on characters. -/
theorem swapChar_swapChar (c : Char) : swapChar (swapChar c) = c := by
  simp only [swapChar, beq_iff_eq]
  by_cases h1 : c = ':'
  · simp [h1]
  · by_cases h2 : c = '/'
    · simp [h2]
    · simp [h1, h2]

/-- The colon/slash swap on a character list is an involution. -/
theorem map_swapChar_map_swapChar (l : List Char) : (l.map swapChar).map swapChar = l := by
  induction l with
  | nil => rfl
  | cons c cs ih => simp [swapChar_swapChar, ih]

/-- `swapColonAndSlash` is an involution on strings. -/
theorem swapColonAndSlash_swapColonAndSlash (s : String) :
    swapColonAndSlash (swapColonAndSlash s) = s := by
  cases s with
  | mk data =>
    show String.mk ((data.map swapChar).map swapChar) = String.mk data
    rw [map_swapChar_map_swapChar]

/-- `swapColonAndSlash` is injective. -/
theorem swapColonAndSlash_injective : Function.Injective swapColonAndSlash := by
  intro a b h
  rw [← swapColonAndSlash_swapColonAndSlash a, h, swapColonAndSlash_swapColonAndSlash]

/-- The swap never creates or removes a `*`. -/
theorem swapChar_eq_star (c : Char) : (swapChar c = '*') ↔ (c = '*') := by
  simp only [swapChar, beq_iff_eq]
  by_cases h1 : c = ':'
  · simp [h1]
  · by_cases h2 : c = '/'
    · simp [h2]
    · simp [h1, h2]

/-- The swap never creates or removes a `*`, at the `BEq` level. -/
theorem swapChar_star_beq (c : Char) : (swapChar c == '*') = (c == '*') := by
  by_cases h : c = '*'
  · rw [h]; rfl
  · have h2 : ¬ swapChar c = '*' := fun hs => h ((swapChar_eq_star c).mp hs)
    rw [beq_eq_false_iff_ne.mpr h2, beq_eq_false_iff_ne.mpr h]

/-- `hasStar` is invariant under the colon/slash swap. -/
theorem hasStar_map_swapChar (l : List Char) : hasStar (l.map swapChar) = hasStar l := by
  induction l with
  | nil => rfl
  | cons c cs ih =>
    show (swapChar c == '*' || hasStar (cs.map swapChar)) = (c == '*' || hasStar cs)
    rw [ih, swapChar_star_beq]

/-- Splitting never yields the empty list of parts. -/
theorem splitOnChar_ne_nil (sep : Char) (l : List Char) : splitOnChar sep l ≠ [] := by
  cases l with
  | nil => simp [splitOnChar]
  | cons c cs =>
    rw [splitOnChar]
    cases splitOnChar sep cs with
    | nil => simp
    | cons s ss =>
      by_cases h : c == sep <;> simp [h]

/-- Unfolding equation of `splitOnChar` on a cons, given the split of the tail. -/
theorem splitOnChar_cons_eq {sep c : Char} {cs s : List Char} {ss : List (List Char)}
    (h : splitOnChar sep cs = s :: ss) :
    splitOnChar sep (c :: cs) =
      if c == sep then [] :: s :: ss else (c :: s) :: ss := by
  rw [splitOnChar, h]

/-- Joining the split parts recovers the original list: splitting is lossless. -/
theorem joinSegs_splitOnChar (sep : Char) (l : List Char) :
    joinSegs sep (splitOnChar sep l) = l := by
  induction l with
  | nil => rfl
  | cons c cs ih =>
    cases hsp : splitOnChar sep cs with
    | nil => exact absurd hsp (splitOnChar_ne_nil sep cs)
    | cons s ss =>
      rw [hsp] at ih
      rw [splitOnChar_cons_eq hsp]
      by_cases hc : c = sep
      · rw [if_pos (beq_iff_eq.mpr hc)]
        show sep :: joinSegs sep (s :: ss) = c :: cs
        rw [ih, hc]
      · rw [if_neg (by simpa using hc)]
        cases ss with
        | nil =>
          show c :: s = c :: cs
          rw [show joinSegs sep [s] = s from rfl] at ih
          rw [ih]
        | cons s2 ss' =>
          show (c :: s) ++ sep :: joinSegs sep (s2 :: ss') = c :: cs
          rw [← ih]
          rfl

/-- `splitOnChar` is injective. -/
theorem splitOnChar_inj {sep : Char} {a b : List Char}
    (h : splitOnChar sep a = splitOnChar sep b) : a = b := by
  rw [← joinSegs_splitOnChar sep a, h, joinSegs_splitOnChar]

/-- Splitting a star-free list yields star-free parts. -/
theorem hasStar_splitOnChar {sep : Char} {l : List Char} (h : hasStar l = false) :
    ∀ s ∈ splitOnChar sep l, hasStar s = false := by
  induction l with
  | nil =>
    intro s hs
    simp only [splitOnChar, List.mem_singleton] at hs
    subst hs; rfl
  | cons c cs ih =>
    have hc : (c == '*') = false ∧ hasStar cs = false := by
      constructor
      · cases hcc : c == '*'
        · rfl
        · rw [hasStar, hcc] at h; simp at h
      · cases hcs : hasStar cs
        · rfl
        · rw [hasStar, hcs] at h; simp at h
    intro s hs
    cases hsp : splitOnChar sep cs with
    | nil => exact absurd hsp (splitOnChar_ne_nil sep cs)
    | cons s0 ss =>
      rw [splitOnChar_cons_eq hsp] at hs
      by_cases hcsep : c = sep
      · rw [if_pos (beq_iff_eq.mpr hcsep)] at hs
        rcases List.mem_cons.mp hs with rfl | hs'
        · rfl
        · exact ih hc.2 s (hsp ▸ hs')
      · rw [if_neg (by simpa using hcsep)] at hs
        rcases List.mem_cons.mp hs with rfl | hs'
        · have hs0 : hasStar s0 = false :=
            ih hc.2 s0 (hsp ▸ List.mem_cons_self s0 ss)
          show (c == '*' || hasStar s0) = false
          rw [hc.1, hs0]
          rfl
        · exact ih hc.2 s (hsp ▸ List.mem_cons_of_mem s0 hs')

/-- Unfolding of `segMatch` on a non-star head character. -/
theorem segMatch_cons_nostar {n : Nat} {c : Char} {ps f : List Char}
    (hc : (c == '*') = false) :
    segMatch (n + 1) (c :: ps) f =
      match f with
      | [] => false
      | d :: fs => c == d && segMatch n ps fs := by
  rw [segMatch.eq_def]
  simp [hc]

/-- Unfolding of `matchSegs` on a non-globstar head segment. -/
theorem matchSegs_cons_noglob {n : Nat} {p : List Char} {ps fs : List (List Char)}
    (hg : (p == ['*', '*']) = false) :
    matchSegs (n + 1) (p :: ps) fs =
      match fs with
      | [] => false
      | f :: fs' => segMatchM p f && matchSegs n ps fs' := by
  rw [matchSegs.eq_def]
  simp [hg]

/-- A star-free minimatch segment pattern matches only itself. -/
theorem segMatch_litpattern :
    ∀ (fuel : Nat) (p f : List Char), hasStar p = false →
      segMatch fuel p f = true → p = f := by
  intro fuel
  induction fuel with
  | zero => intro p f _ h; simp [segMatch] at h
  | succ n ih =>
    intro p f hp h
    cases p with
    | nil =>
      have h' : f.isEmpty = true := h
      cases f with
      | nil => rfl
      | cons d fs => simp at h'
    | cons c ps =>
      have hcps : (c == '*') = false ∧ hasStar ps = false := by
        constructor
        · cases hcc : c == '*'
          · rfl
          · rw [show hasStar (c :: ps) = (c == '*' || hasStar ps) from rfl, hcc] at hp
            simp at hp
        · cases hps : hasStar ps
          · rfl
          · rw [show hasStar (c :: ps) = (c == '*' || hasStar ps) from rfl, hps] at hp
            simp at hp
      rw [segMatch_cons_nostar hcps.1] at h
      cases f with
      | nil => simp at h
      | cons d fs =>
        have h' : (c == d && segMatch n ps fs) = true := h
        obtain ⟨h1, h2⟩ := Bool.and_eq_true_iff.mp h'
        rw [beq_iff_eq.mp h1, ih ps fs hcps.2 h2]

/-- A minimatch pattern all of whose segments are star-free matches only
the identical segment list. -/
theorem matchSegs_litpattern :
    ∀ (fuel : Nat) (ps fs : List (List Char)),
      (∀ p ∈ ps, hasStar p = false) → matchSegs fuel ps fs = true → ps = fs := by
  intro fuel
  induction fuel with
  | zero => intro ps fs _ h; simp [matchSegs] at h
  | succ n ih =>
    intro ps fs hps h
    cases ps with
    | nil =>
      have h' : fs.isEmpty = true := h
      cases fs with
      | nil => rfl
      | cons f fs' => simp at h'
    | cons p ps' =>
      have hpstar : hasStar p = false := hps p (List.mem_cons_self p ps')
      have hglob : (p == ['*', '*']) = false := by
        cases hpe : p == ['*', '*']
        · rfl
        · have hp2 : p = ['*', '*'] := by simpa using hpe
          rw [hp2] at hpstar
          simp [hasStar] at hpstar
      rw [matchSegs_cons_noglob hglob] at h
      cases fs with
      | nil => simp at h
      | cons f fs' =>
        have h' : (segMatchM p f && matchSegs n ps' fs') = true := h
        obtain ⟨h1, h2⟩ := Bool.and_eq_true_iff.mp h'
        rw [segMatchM] at h1
        have hseg := (Bool.and_eq_true_iff.mp h1).2
        rw [segMatch_litpattern _ p f hpstar hseg,
          ih ps' fs' (fun q hq => hps q (List.mem_cons_of_mem p hq)) h2]

/-- A star-free minimatch pattern matches only the identical string. -/
theorem minimatchM_litpattern {target pat : String} (hp : hasStar pat.toList = false)
    (h : minimatchM target pat = true) : target = pat := by
  rw [minimatchM] at h
  have hsegs := matchSegs_litpattern _ _ _
    (fun p hpm => hasStar_splitOnChar hp p hpm) h
  have hl : pat.toList = target.toList := splitOnChar_inj hsegs
  cases target with
  | mk d1 =>
    cases pat with
    | mk d2 => exact congrArg String.mk hl.symm

/-- Expanding a star-free referenced name yields only that name itself. -/
theorem expandWildcard_litname_mem {name m : String} {scripts : Scripts}
    (hstar : hasStar name.toList = false) (hm : m ∈ expandWildcard name scripts) :
    m = name := by
  rw [expandWildcard] at hm
  obtain ⟨x, hx, rfl⟩ := List.mem_map.mp hm
  have hfil := (List.mem_filter.mp hx).2
  have hpat : hasStar (swapColonAndSlash name).toList = false := by
    show hasStar (name.toList.map swapChar) = false
    rw [hasStar_map_swapChar]
    exact hstar
  rw [minimatchM_litpattern hpat hfil, swapColonAndSlash_swapColonAndSlash]

/-- With distinct script keys, a single wildcard expansion has no duplicates. -/
theorem expandWildcard_nodup {name : String} {scripts : Scripts}
    (hk : (keys scripts).Nodup) : (expandWildcard name scripts).Nodup := by
  rw [expandWildcard]
  exact ((hk.map swapColonAndSlash_injective).filter _).map swapColonAndSlash_injective

/-- With distinct script keys, expanding a duplicate-free list of star-free
names yields a duplicate-free list. -/
theorem expandWildcards_nodup {scripts : Scripts} (hk : (keys scripts).Nodup) :
    ∀ u : List String, u.Nodup → (∀ n ∈ u, hasStar n.toList = false) →
      (expandWildcards u scripts).Nodup := by
  intro u
  induction u with
  | nil => intro _ _; simp [expandWildcards]
  | cons n t ih =>
    intro hu hl
    rw [expandWildcards]
    simp only [List.map_cons, List.flatten_cons]
    apply List.Nodup.append
    · exact expandWildcard_nodup hk
    · exact ih (List.nodup_cons.mp hu).2 (fun m hm => hl m (List.mem_cons_of_mem n hm))
    · intro a ha hb
      have ha' : a = n := expandWildcard_litname_mem (hl n (List.mem_cons_self n t)) ha
      obtain ⟨lb, hlb, halb⟩ := List.mem_flatten.mp hb
      obtain ⟨n', hn', rfl⟩ := List.mem_map.mp hlb
      have hb' : a = n' :=
        expandWildcard_litname_mem (hl n' (List.mem_cons_of_mem n hn')) halb
      have hnn : n = n' := ha'.symm.trans hb'
      exact (List.nodup_cons.mp hu).1 (by rw [hnn]; exact hn')

/-- The lookup into the fully attached arena, computed from the raw map. -/
theorem objGet_attached (scripts : Scripts) (name : String) :
    objGet (attachLabelAndNodes (getDetailedScripts scripts)) name =
      (objGet scripts name).map (fun cmd =>
        attachOne (gatherAllSubNames (getDetailedScripts scripts)) name
          (detailOne scripts name cmd)) := by
  have h1 : attachLabelAndNodes (getDetailedScripts scripts) =
      (getDetailedScripts scripts).map
        (fun p => (p.1, attachOne (gatherAllSubNames (getDetailedScripts scripts)) p.1 p.2)) :=
    rfl
  have h2 : getDetailedScripts scripts =
      scripts.map (fun p => (p.1, detailOne scripts p.1 p.2)) := rfl
  rw [h1, objGet_map]
  conv_lhs => rw [h2, objGet_map]
  cases objGet scripts name <;> rfl

/-- The node-name list built by the second pass, as a function of the
`pre`/`post` hook truthiness. -/
theorem attachOne_nodes (allSubNames : List String) (name : String) (s : DetailedScript) :
    (attachOne allSubNames name s).nodes =
      if truthyOpt s.post then
        (if truthyOpt s.pre then ("pre" ++ name) :: s.subNames else s.subNames) ++
          ["post" ++ name]
      else
        if truthyOpt s.pre then ("pre" ++ name) :: s.subNames else s.subNames := rfl

/-- The `pre` field stored by the first pass. -/
theorem detailOne_pre (scripts : Scripts) (name cmd : String) :
    (detailOne scripts name cmd).pre = objGet scripts ("pre" ++ name) := rfl

/-- The `post` field stored by the first pass. -/
theorem detailOne_post (scripts : Scripts) (name cmd : String) :
    (detailOne scripts name cmd).post = objGet scripts ("post" ++ name) := rfl

/-- The `subNames` field stored by the first pass. -/
theorem detailOne_subNames (scripts : Scripts) (name cmd : String) :
    (detailOne scripts name cmd).subNames = getSubNames name scripts := rfl

/-! ### Claims -/

/-- C1, counterexample: calling `main` with an empty script mapping does
not raise the configuration error — `!scripts` is false for the empty
object — so `main({}, {})` returns the tree labeled `0 scripts` instead of
failing. -/
theorem main_empty_map_returns_tree :
    main (some []) ⟨false, false, false, false⟩ =
      Except.ok ⟨"0 scripts", []⟩ := rfl

/-- C1, amended: `main` fails with the configuration error exactly when the
script mapping is null/absent; an empty (but present) mapping is accepted
and produces the tree labeled `0 scripts` with no children, for every
options value. -/
theorem main_error_iff_absent (options : Options) :
    main none options = Except.error "No package.json or no scripts key in this dir" ∧
    main (some []) options = Except.ok ⟨"0 scripts", []⟩ := by
  rcases options with ⟨a, alpha, p, pr⟩
  exact ⟨rfl, by cases a <;> cases alpha <;> cases p <;> cases pr <;> rfl⟩

/-- C2, counterexample: when a command references both `test:lint` directly
and the overlapping wildcard `test:*`, the deduplication that runs before
wildcard expansion does not prevent the expanded list from containing
`test:lint` twice, so `subNames` has a duplicate. -/
theorem subNames_duplicate_from_wildcard_overlap :
    ¬ (getSubNames "all"
        [("test:lint", "lint it"), ("test:unit", "unit it"),
         ("all", "npm-run-all test:lint test:*")]).Nodup := by decide

/-- C3: wildcard expansion — over the scripts `test:lint`, `test:unit`,
`build`, the referenced name `test:*` expands to exactly
`[test:lint, test:unit]` in map iteration order, and with the additional
script `test:unit:fast` the referenced name `test:**` expands to a list
that also includes `test:unit:fast`. -/
theorem expandWildcard_star_and_globstar :
    expandWildcard "test:*"
        [("test:lint", "lint"), ("test:unit", "unit"), ("build", "b")] =
      ["test:lint", "test:unit"] ∧
    "test:unit:fast" ∈
      expandWildcard "test:**"
        [("test:lint", "lint"), ("test:unit", "unit"), ("build", "b"),
         ("test:unit:fast", "f")] := ⟨rfl, by decide⟩

/-- C4, counterexample: the classifier tests the suffix by command
truthiness, not key membership — `prebuild` is not classified as a
lifecycle script when `build` exists as a key but its command is the empty
string, although the claim predicts `true` for a suffix that is a key. -/
theorem isLifeCycleScript_ignores_empty_command_key :
    isLifeCycleScript "pre" "prebuild" [("prebuild", "x"), ("build", "")] = false := by
  decide

/-- C6: direct-invocation extraction on `npm run build && npm run test`
returns exactly `[build, test]`, in that order, deduplicated. -/
theorem getRunScripts_direct_example :
    getRunScripts "npm run build && npm run test" = ["build", "test"] := rfl

/-- C7: batch-invocation extraction on `npm-run-all -s clean build` returns
exactly `[clean, build]`; the dash-prefixed flag token `-s` does not appear
in the result. -/
theorem getRunAllScripts_batch_example :
    getRunAllScripts "npm-run-all -s clean build" = ["clean", "build"] ∧
    "-s" ∉ getRunAllScripts "npm-run-all -s clean build" := ⟨rfl, by decide⟩

/-- C9: pruning is idempotent — applying the pruning filter twice yields
the same entry map as applying it once. -/
theorem prune_idempotent (l : List (String × AttachedScript)) :
    prune (prune l) = prune l := by
  simp [prune, List.filter_filter, Bool.and_self]

/-- C2, amended: the extracted references are deduplicated before wildcard
expansion, so duplicates can appear exactly when expansions overlap; when
no extracted reference contains a `*`, the resolved child-name list has no
duplicates (script keys are distinct in a JS object). -/
theorem subNames_nodup_of_no_wildcards (scripts : Scripts) (name : String)
    (hk : (keys scripts).Nodup)
    (hstar : ∀ n ∈ rawSubNames name scripts, hasStar n.toList = false) :
    (getSubNames name scripts).Nodup := by
  rw [getSubNames, getExistingSubNames]
  exact (expandWildcards_nodup hk (unique (rawSubNames name scripts)) (unique_nodup _)
    (fun n hn => hstar n (unique_sub hn))).filter _

/-- C2, witness for the amended theorem at a concrete script map. -/
theorem subNames_nodup_of_no_wildcards_witness :
    ((keys [("a", "npm run b"), ("b", "bb")]).Nodup ∧
      (∀ n ∈ rawSubNames "a" [("a", "npm run b"), ("b", "bb")], hasStar n.toList = false)) ∧
    (getSubNames "a" [("a", "npm run b"), ("b", "bb")]).Nodup :=
  ⟨⟨by decide, by decide⟩,
    subNames_nodup_of_no_wildcards [("a", "npm run b"), ("b", "bb")] "a"
      (by decide) (by decide)⟩

/-- C4, amended: the classifier returns true iff the name starts with the
prefix and the remainder either maps to a nonempty command in the script
map or is one of the built-ins; consequently a name equal to the bare
prefix is classified iff the empty-string key itself maps to a nonempty
command (the built-ins do not contain the empty name). -/
theorem isLifeCycleScript_truthiness (pfx name : String) (scripts : Scripts) :
    (isLifeCycleScript pfx name scripts = true ↔
      startsWithLit name pfx = true ∧
        ((∃ v, objGet scripts (sliceFrom name pfx.toList.length) = some v ∧ v ≠ "") ∨
          sliceFrom name pfx.toList.length ∈ BUILTINS)) ∧
    (isLifeCycleScript pfx pfx scripts = true ↔
      ∃ v, objGet scripts "" = some v ∧ v ≠ "") := by
  have hmain : ∀ nm : String, isLifeCycleScript pfx nm scripts = true ↔
      startsWithLit nm pfx = true ∧
        ((∃ v, objGet scripts (sliceFrom nm pfx.toList.length) = some v ∧ v ≠ "") ∨
          sliceFrom nm pfx.toList.length ∈ BUILTINS) := by
    intro nm
    rw [isLifeCycleScript]
    simp only [Bool.and_eq_true, Bool.or_eq_true, truthyLookup_eq_true, List.elem_iff]
  refine ⟨hmain name, ?_⟩
  rw [hmain pfx]
  have hslice : sliceFrom pfx pfx.toList.length = "" := by
    show (⟨pfx.toList.drop pfx.toList.length⟩ : String) = ""
    rw [List.drop_length]
  have hstarts : startsWithLit pfx pfx = true := by
    show (pfx.toList.take pfx.toList.length == pfx.toList) = true
    rw [List.take_length]
    exact beq_self_eq_true _
  rw [hslice, hstarts]
  have hnb : ("" : String) ∉ BUILTINS := by decide
  simp [hnb]

/-- C5: every name in a resolved child-name list is a key of the original
script map — extracted or expanded names without a script are dropped by
the existence filter, never surviving and never failing. -/
theorem subNames_exist (scripts : Scripts) (name n : String)
    (h : n ∈ getSubNames name scripts) : n ∈ keys scripts := by
  rw [getSubNames, getExistingSubNames] at h
  obtain ⟨v, hv, _⟩ := truthyLookup_eq_true.mp (List.mem_filter.mp h).2
  exact objGet_some_mem_keys hv

/-- C5, witness at a concrete script map. -/
theorem subNames_exist_witness :
    ("b" ∈ getSubNames "a" [("a", "npm run b"), ("b", "bb")]) ∧
    "b" ∈ keys (α := String) [("a", "npm run b"), ("b", "bb")] :=
  ⟨by decide, subNames_exist [("a", "npm run b"), ("b", "bb")] "a" "b" (by decide)⟩

/-- C8: hook positioning — whenever `build` is a script and `prebuild`
exists (a key with a nonempty command, the program's existence test), the
`prebuild` entry is the first element of `build`'s node list, and whenever
`postbuild` also exists its entry is the last element, regardless of where
those names fall in extraction order. -/
theorem build_hooks_first_and_last (scripts : Scripts) (cb pc : String)
    (hb : objGet scripts "build" = some cb)
    (hp : objGet scripts "prebuild" = some pc) (hpne : pc ≠ "") :
    ∃ e, objGet (attachLabelAndNodes (getDetailedScripts scripts)) "build" = some e ∧
      e.nodes.head? = some "prebuild" ∧
      (∀ qc, objGet scripts "postbuild" = some qc → qc ≠ "" →
        e.nodes.getLast? = some "postbuild") := by
  have hlook := objGet_attached scripts "build"
  rw [hb] at hlook
  refine ⟨_, hlook, ?_, ?_⟩
  · rw [attachOne_nodes, detailOne_pre, detailOne_post, detailOne_subNames]
    rw [show ("pre" ++ "build" : String) = "prebuild" from rfl, hp]
    rw [show truthyOpt (some pc) = (pc != "") from rfl, bne_iff_ne.mpr hpne]
    cases htr : truthyOpt (objGet scripts ("post" ++ "build")) <;> simp [htr]
  · intro qc hq hqne
    rw [attachOne_nodes, detailOne_pre, detailOne_post, detailOne_subNames]
    rw [show ("post" ++ "build" : String) = "postbuild" from rfl, hq]
    rw [show truthyOpt (some qc) = (qc != "") from rfl, bne_iff_ne.mpr hqne]
    simp [List.getLast?_concat]

/-- C8, witness at a concrete script map with all three scripts present. -/
theorem build_hooks_first_and_last_witness :
    ∃ e, objGet (attachLabelAndNodes (getDetailedScripts
        [("build", "b"), ("prebuild", "p"), ("postbuild", "q")])) "build" = some e ∧
      e.nodes.head? = some "prebuild" ∧
      (∀ qc, objGet [("build", "b"), ("prebuild", "p"), ("postbuild", "q")] "postbuild" =
          some qc → qc ≠ "" → e.nodes.getLast? = some "postbuild") :=
  build_hooks_first_and_last [("build", "b"), ("prebuild", "p"), ("postbuild", "q")]
    "b" "p" (by decide) (by decide) (by decide)

/-- C10: a script whose command is the empty string is treated as
nonexistent — its name is dropped from every entry's resolved child-name
list, and when it is named `pre<name>` or `post<name>` it is not attached
as a hook, so it never appears in any entry's node list at all. -/
theorem empty_command_script_is_nonexistent (scripts : Scripts) (s : String)
    (h : objGet scripts s = some "") :
    (∀ name, s ∉ getSubNames name scripts) ∧
    (∀ name e, objGet (attachLabelAndNodes (getDetailedScripts scripts)) name = some e →
      s ∉ e.nodes) := by
  have hsub : ∀ name, s ∉ getSubNames name scripts := by
    intro name hmem
    rw [getSubNames, getExistingSubNames] at hmem
    obtain ⟨v, hv, hne⟩ := truthyLookup_eq_true.mp (List.mem_filter.mp hmem).2
    rw [h] at hv
    exact hne (Option.some.injEq _ _ ▸ hv.symm)
  refine ⟨hsub, ?_⟩
  intro name e he hmem
  have hlook := objGet_attached scripts name
  rw [hlook] at he
  cases hc : objGet scripts name with
  | none => rw [hc] at he; simp at he
  | some cmd =>
    rw [hc] at he
    have he' : e = attachOne (gatherAllSubNames (getDetailedScripts scripts)) name
        (detailOne scripts name cmd) := by simpa using he.symm
    rw [he', attachOne_nodes, detailOne_pre, detailOne_post, detailOne_subNames] at hmem
    have hinner : s ∉
        (if truthyOpt (objGet scripts ("pre" ++ name)) then
          ("pre" ++ name) :: getSubNames name scripts
        else getSubNames name scripts) := by
      intro hin
      cases hpre : truthyOpt (objGet scripts ("pre" ++ name)) with
      | false =>
        rw [hpre] at hin
        simp only [Bool.false_eq_true, reduceIte] at hin
        exact hsub name hin
      | true =>
        rw [hpre] at hin
        simp only [reduceIte] at hin
        rcases List.mem_cons.mp hin with rfl | hin'
        · rw [h] at hpre
          simp [truthyOpt] at hpre
        · exact hsub name hin'
    cases hpost : truthyOpt (objGet scripts ("post" ++ name)) with
    | false =>
      rw [hpost] at hmem
      simp only [Bool.false_eq_true, reduceIte] at hmem
      exact hinner hmem
    | true =>
      rw [hpost] at hmem
      simp only [reduceIte] at hmem
      rcases List.mem_append.mp hmem with hin | hin
      · exact hinner hin
      · have : s = "post" ++ name := by simpa using hin
        rw [this] at h
        rw [h] at hpost
        simp [truthyOpt] at hpost

/-- C10, witness at a concrete script map containing an empty-command script. -/
theorem empty_command_script_is_nonexistent_witness :
    (objGet [("a", "npm run b"), ("b", "")] "b" = some "") ∧
    ((∀ name, "b" ∉ getSubNames name [("a", "npm run b"), ("b", "")]) ∧
      (∀ name e, objGet (attachLabelAndNodes (getDetailedScripts
          [("a", "npm run b"), ("b", "")])) name = some e → "b" ∉ e.nodes)) :=
  ⟨by decide, empty_command_script_is_nonexistent [("a", "npm run b"), ("b", "")] "b"
    (by decide)⟩

end NpmScriptsTree
